import Mathlib

/-!
Verification development for the container-remote repository.

The development shallowly embeds the two core modules:

* `src/container_remote/docker.py` — `DockerEnv` (container lifecycle) and
  `DockerEnvRemote` (staging + command normalization via `remote`);
* `src/lib/mount.py` — `Mounted` (deduplicating path set) and `MountSpace`
  (staging directory lifecycle).

Machine-level conventions of the embedding:

* Python strings are Lean `String`s; character classes (`shlex` whitespace,
  the `\s` class of `re`, the characters stripped by `str.strip`) are modelled
  at the ASCII level, which covers every character the code and the claims use.
* `shlex.split(s)` (POSIX mode, `whitespace_split=True`, no comments) is
  embedded as a character-by-character state machine `shlex_split`; a raised
  `ValueError` (unclosed quote / dangling escape) is `none`.
* Filesystem paths are lists of path segments of an absolute, symlink-free,
  already-normalized path (so `pathlib.Path.resolve` is the identity and
  `PurePath` comparison is lexicographic comparison of the segment lists,
  `is_relative_to` is the segment-prefix test).
* The docker runtime is an external collaborator: its replies (the `docker.ps`
  results, the container created by `docker.run`, success of `docker.remove`)
  are parameters, and the calls issued to it are recorded as an action trace.
-/

namespace ContainerRemote

/-! ## Character classes -/

/-- The single-quote character (written via its code point). -/
def squote : Char := Char.ofNat 39

/-- The double-quote character (written via its code point). -/
def dquote : Char := Char.ofNat 34

/-- The backslash character. -/
def bslash : Char := Char.ofNat 92

/-- Whitespace as `shlex` sees it (its `whitespace` attribute): space,
tab, carriage return, newline. -/
def isShlexWs (c : Char) : Bool :=
  c = ' ' || c = Char.ofNat 9 || c = Char.ofNat 13 || c = Char.ofNat 10

/-- Whitespace matched by the regex class `\s` (ASCII part):
space, tab, newline, carriage return, vertical tab, form feed. -/
def isReWs (c : Char) : Bool :=
  c = ' ' || c = Char.ofNat 9 || c = Char.ofNat 10 || c = Char.ofNat 13 ||
    c = Char.ofNat 11 || c = Char.ofNat 12

/-- Characters removed by Python `str.strip()` (ASCII part). -/
def isPyStripWs (c : Char) : Bool := isReWs c

/-- Python `str.strip()`: drop leading and trailing whitespace. -/
def pyStrip (s : String) : String :=
  ⟨((s.data.dropWhile isPyStripWs).reverse.dropWhile isPyStripWs).reverse⟩

/-! ## Embedding of `shlex.split` (POSIX, whitespace-split, no comments)

State machine transcribed from `shlex.read_token` with the configuration
installed by `shlex.split(s)`: `posix=True`, `whitespace_split=True`,
`commenters` empty, `quotes` holding the two quote characters, `escape`
the backslash, `escapedquotes` the double quote only.
-/

/-- Lexer mode: outside a token, inside a token, inside single or double
quotes, or just after a backslash (outside quotes / inside double quotes). -/
inductive LexMode where
  | space
  | word
  | insq
  | indq
  | escWord
  | escDq
deriving DecidableEq, Repr

/-- Full lexer state: emitted tokens, current token text, whether the current
token saw a quote (so an empty quoted token is still emitted), and the mode. -/
structure LexState where
  acc : List String
  cur : String
  quoted : Bool
  mode : LexMode
deriving DecidableEq, Repr

/-- Initial lexer state. -/
def initLex : LexState := ⟨[], "", false, LexMode.space⟩

/-- One step of the `shlex` state machine on one input character. -/
def lexStep (st : LexState) (c : Char) : LexState :=
  match st.mode with
  | LexMode.space =>
    if isShlexWs c then st
    else if c = squote then { st with quoted := true, mode := LexMode.insq }
    else if c = dquote then { st with quoted := true, mode := LexMode.indq }
    else if c = bslash then { st with mode := LexMode.escWord }
    else { st with cur := st.cur.push c, mode := LexMode.word }
  | LexMode.word =>
    if isShlexWs c then
      if st.cur ≠ "" || st.quoted then
        { acc := st.acc ++ [st.cur], cur := "", quoted := false, mode := LexMode.space }
      else
        { st with mode := LexMode.space }
    else if c = squote then { st with quoted := true, mode := LexMode.insq }
    else if c = dquote then { st with quoted := true, mode := LexMode.indq }
    else if c = bslash then { st with mode := LexMode.escWord }
    else { st with cur := st.cur.push c }
  | LexMode.insq =>
    if c = squote then { st with mode := LexMode.word }
    else { st with cur := st.cur.push c }
  | LexMode.indq =>
    if c = dquote then { st with mode := LexMode.word }
    else if c = bslash then { st with mode := LexMode.escDq }
    else { st with cur := st.cur.push c }
  | LexMode.escWord =>
    { st with cur := st.cur.push c, mode := LexMode.word }
  | LexMode.escDq =>
    if c = bslash || c = dquote then { st with cur := st.cur.push c, mode := LexMode.indq }
    else { st with cur := (st.cur.push bslash).push c, mode := LexMode.indq }

/-- End-of-input handling: an open quote or dangling escape raises
`ValueError` (modelled by `none`); otherwise the pending token is emitted
when it is nonempty or was quoted. -/
def lexFinalize (st : LexState) : Option (List String) :=
  match st.mode with
  | LexMode.space => some st.acc
  | LexMode.word =>
    some (st.acc ++ (if st.cur ≠ "" || st.quoted then [st.cur] else []))
  | _ => none

/-- Embedding of `shlex.split` as used by `DockerEnvRemote.remote`. -/
def shlex_split (s : String) : Option (List String) :=
  lexFinalize (s.data.foldl lexStep initLex)

/-! ## Embedding of the regex check in `DockerEnvRemote.remote`

The code tests `re.search` with the raw pattern
`/bin/bash\s*-c\s*[Q](.*?)[Q]` where `[Q]` stands for the character
class holding the two quote characters.
A match exists iff some suffix of the string starts with `/bin/bash`,
then any run of `\s` characters, then `-c`, then any run of `\s`
characters, then a quote character, followed (with no intervening
newline, since `.` does not match a newline) by another quote character.
Because neither `-` nor a quote is a `\s` character, the greedy
`dropWhile` runs below are exactly the runs the regex can consume.
-/

/-- Is there a closing quote character ahead of the cursor, before any
newline (the `(.*?)[Q]` part of the pattern)? -/
def closeQuoteAhead : List Char → Bool
  | [] => false
  | c :: cs =>
    if c = Char.ofNat 10 then false
    else if c = squote || c = dquote then true
    else closeQuoteAhead cs

/-- Strip a literal prefix from a character list. -/
def stripLit : List Char → List Char → Option (List Char)
  | [], cs => some cs
  | _ :: _, [] => none
  | p :: ps, c :: cs => if p = c then stripLit ps cs else none

/-- Does the bash-invocation pattern match starting exactly here? -/
def bashCAt (cs : List Char) : Bool :=
  match stripLit "/bin/bash".data cs with
  | none => false
  | some r1 =>
    match stripLit "-c".data (r1.dropWhile isReWs) with
    | none => false
    | some r2 =>
      match r2.dropWhile isReWs with
      | [] => false
      | q :: body => (q = squote || q = dquote) && closeQuoteAhead body

/-- Embedding of `re.search` for this fixed pattern: does the pattern match
at some position of the string? -/
def searchBashC : List Char → Bool
  | [] => bashCAt []
  | c :: cs => bashCAt (c :: cs) || searchBashC cs

/-! ## Embedding of `DockerEnvRemote.remote` -/

/-- A one-character string holding the double quote. -/
def dqStr : String := ⟨[dquote]⟩

/-- A one-character string holding the single quote. -/
def sqStr : String := ⟨[squote]⟩

/-- The wrap applied by `remote` to a string that does not already contain
an explicit bash invocation: the f-string in the code, which is
`/bin/bash -c ` followed by the command between double quotes. -/
def bashWrap (cmd : String) : String :=
  "/bin/bash -c " ++ dqStr ++ cmd ++ dqStr

/-- The string branch of `DockerEnvRemote.remote`: wrap unless the pattern
already occurs somewhere, then tokenize with `shlex.split`. -/
def remoteString (cmd : String) : Option (List String) :=
  if searchBashC cmd.data then shlex_split cmd
  else shlex_split (bashWrap cmd)

/-- The sequence branch of `DockerEnvRemote.remote`: a sequence is kept
unchanged only when it has more than two tokens and its first two tokens
strip to `/bin/bash` and `-c`; otherwise the two tokens `/bin/bash` and
`-c` are prepended. -/
def remoteSeq : List String → List String
  | a :: b :: c :: rest =>
    if pyStrip a = "/bin/bash" && pyStrip b = "-c" then a :: b :: c :: rest
    else "/bin/bash" :: "-c" :: a :: b :: c :: rest
  | cmd => "/bin/bash" :: "-c" :: cmd

/-- Embedding of `DockerEnvRemote.remote`: the argument vector handed to
`self.remote_container.execute` (`none` when `shlex.split` raises). -/
def remote : Sum String (List String) → Option (List String)
  | Sum.inl s => remoteString s
  | Sum.inr l => some (remoteSeq l)

/-! ## Paths and the `Mounted` path set (`src/lib/mount.py`)

A path is the list of segments of an absolute, normalized, symlink-free
path, so `Path.resolve()` is the identity, `PurePath.is_relative_to` is the
segment-prefix test, and `PurePath` ordering (used by `sorted` over the
dict keys) is lexicographic comparison of segment lists, segments compared
as strings.  `Mounted.mounted` is a Python dict, modelled as an
insertion-ordered association list with unique keys.
-/

/-- A resolved absolute path, as its list of segments. -/
abbrev PPath := List String

/-- Segment-wise prefix test: `isSegPre q p` says the path `q` is an
ancestor of (or equal to) `p`, i.e. `p.is_relative_to(q)` in the code. -/
def isSegPre : PPath → PPath → Bool
  | [], _ => true
  | _ :: _, [] => false
  | x :: xs, y :: ys => decide (x = y) && isSegPre xs ys

/-- Lexicographic order on segment lists — `PurePath` comparison, as used
by `sorted` on the dict keys in `Mounted.concentrate`. -/
def segLe : PPath → PPath → Bool
  | [], _ => true
  | _ :: _, [] => false
  | x :: xs, y :: ys => if x = y then segLe xs ys else decide (x < y)

/-- Propositional form of `segLe`, for `List.insertionSort`. -/
def pathLe (a b : PPath) : Prop := segLe a b = true

instance : DecidableRel pathLe := fun a b => inferInstanceAs (Decidable (segLe a b = true))

/-- The `Mounted.mounted` dict: insertion-ordered `(source, staging)` pairs. -/
abbrev Mounted := List (PPath × PPath)

/-- The dict keys (sources), in insertion order. -/
def srcKeys (m : Mounted) : List PPath := m.map Prod.fst

/-- Dict read `m[k]`. -/
def lookupSrc (p : PPath) : Mounted → Option PPath
  | [] => none
  | (k, v) :: rest => if k = p then some v else lookupSrc p rest

/-- Dict write `m[k] = v`: overwrite in place when the key exists, else
append at the end. -/
def setEntry : Mounted → PPath → PPath → Mounted
  | [], k, v => [(k, v)]
  | (k0, v0) :: rest, k, v =>
    if k0 = k then (k, v) :: rest else (k0, v0) :: setEntry rest k v

/-- The linear pass of `Mounted.concentrate`: walk the sorted source list,
keeping a candidate only when it is not relative to the most recently kept
path (`checked_paths[-1]`). -/
def keepScan : Option PPath → List PPath → List PPath
  | _, [] => []
  | none, p :: ps => p :: keepScan (some p) ps
  | some k, p :: ps =>
    if isSegPre k p then keepScan (some k) ps else p :: keepScan (some p) ps

/-- The sources sorted by their resolved form.  The dict keys are pairwise
distinct and `pathLe` is a total order that is antisymmetric on them, so
the sorted arrangement is unique and any sorting algorithm models the
`sorted` builtin of Python. -/
def sortedSrcs (m : Mounted) : List PPath := List.insertionSort pathLe (srcKeys m)

/-- Embedding of `Mounted.concentrate`: drop every source covered by an ancestor, and
rebuild the dict from the kept sources in sorted order. -/
def concentrate (m : Mounted) : Mounted :=
  (keepScan none (sortedSrcs m)).filterMap fun p => (lookupSrc p m).map fun v => (p, v)

/-- Embedding of `Mounted.add`: dict write followed by `concentrate`. -/
def mountedAdd (m : Mounted) (k v : PPath) : Mounted := concentrate (setEntry m k v)

/-! ## `MountSpace` staging lifecycle (`src/lib/mount.py`)

The filesystem is the set of paths that currently exist, as a list.
`shutil.rmtree root` deletes `root` and everything under it;
`os.makedirs root` creates `root` (ancestor creation is irrelevant to the
claims and elided).  The log lines taken by `remove_staging` are recorded
as events; the operation raises nothing on either branch.
-/

/-- The filesystem: the set of existing paths. -/
abbrev FileSys := List PPath

/-- Embedding of `os.path.exists`. -/
def pathExists (fs : FileSys) (p : PPath) : Bool := fs.any fun q => q = p

/-- Embedding of `shutil.rmtree root`: every path at or under `root` stops existing. -/
def rmtree (root : PPath) (fs : FileSys) : FileSys :=
  fs.filter fun p => !(isSegPre root p)

/-- Embedding of `os.makedirs root`. -/
def makedirs (root : PPath) (fs : FileSys) : FileSys := root :: fs

/-- Events logged by the staging lifecycle operations. -/
inductive StagingEvent where
  | cleanupConflict
  | createRoot
  | removeTree
  | skipRemove
deriving DecidableEq, Repr

/-- Embedding of `MountSpace.init_staging`: delete a conflicting pre-existing root, then
create it fresh. -/
def init_staging (root : PPath) (fs : FileSys) : FileSys × List StagingEvent :=
  if pathExists fs root then
    (makedirs root (rmtree root fs), [StagingEvent.cleanupConflict, StagingEvent.createRoot])
  else
    (makedirs root fs, [StagingEvent.createRoot])

/-- Embedding of `MountSpace.remove_staging`: delete the root when present, otherwise a
logged no-op; neither branch raises. -/
def remove_staging (root : PPath) (fs : FileSys) : FileSys × List StagingEvent :=
  if pathExists fs root then (rmtree root fs, [StagingEvent.removeTree])
  else (fs, [StagingEvent.skipRemove])

/-! ## `DockerEnv` container lifecycle (`src/container_remote/docker.py`)

Containers are abstract identifiers.  One call to `run_container` or
`remove_container` is embedded as a function of the handle state and of
the replies of the runtime; the calls it issues to the runtime are
returned as an action trace, a raised `RuntimeError` as an error message.
-/

/-- An abstract container reference. -/
abbrev Container := Nat

/-- One call made to the docker runtime. -/
inductive DockerAction where
  | psQuery
  | removeMany (cs : List Container)
  | removeOne (c : Container)
  | runCreate (c : Container)
deriving DecidableEq, Repr

/-- Everything one `run_container` call depends on: whether
`self.container_info` is non-empty (an identity filter is configured), the
reply of `docker.ps` for that filter, the currently tracked
`self.container`, and the container `docker.run` would create. -/
structure RunCtx where
  hasFilter : Bool
  psResult : List Container
  current : Option Container
  created : Container
deriving DecidableEq, Repr

/-- Result of one `run_container` call. -/
structure RunOutcome where
  actions : List DockerAction
  container : Option Container
  error : Option String
deriving DecidableEq, Repr

/-- The straight-line tail of `DockerEnv.run_container` after the
identity-filter block: remove the tracked container under `force_rerun`,
then create a new container only when `force_rerun` is set or no container
is tracked.  `acts0` holds the runtime calls already issued. -/
def run_container_rest (ctx : RunCtx) (forceRerun : Bool)
    (acts0 : List DockerAction) : RunOutcome :=
  let acts1 := acts0 ++
    (match ctx.current with
     | some c => if forceRerun then [DockerAction.removeOne c] else []
     | none => [])
  if forceRerun || ctx.current.isNone then
    { actions := acts1 ++ [DockerAction.runCreate ctx.created],
      container := some ctx.created, error := none }
  else
    { actions := acts1, container := ctx.current, error := none }

/-- Embedding of `DockerEnv.run_container`. -/
def run_container (ctx : RunCtx) (forceRerun : Bool) : RunOutcome :=
  if ctx.hasFilter then
    if ctx.psResult.isEmpty then
      run_container_rest ctx forceRerun [DockerAction.psQuery]
    else if forceRerun then
      run_container_rest ctx forceRerun
        [DockerAction.psQuery, DockerAction.removeMany ctx.psResult]
    else if ctx.psResult.length = 1 then
      { actions := [DockerAction.psQuery], container := ctx.psResult.head?, error := none }
    else
      { actions := [DockerAction.psQuery], container := ctx.current,
        error := some "Multiple containers found with same filter" }
  else run_container_rest ctx forceRerun []

/-- Result of one `remove_container` call: the boolean returned to the
caller, the new `self.container`, and whether the failure was logged.  The
operation is total — a runtime failure is caught, never propagated. -/
structure RemoveOutcome where
  result : Bool
  container : Option Container
  logged : Bool
deriving DecidableEq, Repr

/-- Embedding of `DockerEnv.remove_container`.  `arg` is the
`container_or_info` argument (`none` models Python `None`, and any other
falsy argument such as an empty sequence, via the `or` fallback);
`removeOk t` says whether `docker.remove(t, force=True)` succeeds. -/
def remove_container (current : Option Container) (arg : Option Container)
    (removeOk : Container → Bool) (hasLogger : Bool) : RemoveOutcome :=
  let target := match arg with
    | some t => some t
    | none => current
  match target with
  | none => { result := true, container := current, logged := false }
  | some t =>
    if removeOk t then
      { result := true,
        container := if current = some t then none else current,
        logged := false }
    else
      { result := false, container := current, logged := hasLogger }

/-! ## `DockerEnvRemote.__init__` (`src/container_remote/docker.py`)

The constructor is straight-line code; the embedding records its
externally visible effects in order: staging initialization, one recursive
copy per mount, then the container launch (`DockerEnv.__init__` calls
`run_container`, which issues `docker.run`).  The `volumes` flag passed to
the launch carries the bind-mount list. -/

/-- Externally visible events of `DockerEnvRemote.__init__`, in order. -/
inductive EnvEvent where
  | stagingInit
  | mountCopy (src : PPath)
  | containerStart (volumes : List (PPath × PPath))
deriving DecidableEq, Repr

/-- Embedding of `DockerEnvRemote.__init__`: initialize staging, copy each
mount into the staging root, append the `(staging_root, remote_root)` pair
to the caller-supplied volume list, then delegate the launch. -/
def envRemoteInit (stagingRoot remoteRoot : PPath) (mounts : List PPath)
    (callerVolumes : List (PPath × PPath)) : List EnvEvent × List (PPath × PPath) :=
  let ev0 := [EnvEvent.stagingInit]
  let ev1 := mounts.foldl (fun acc m => acc ++ [EnvEvent.mountCopy m]) ev0
  let vols := callerVolumes ++ [(stagingRoot, remoteRoot)]
  (ev1 ++ [EnvEvent.containerStart vols], vols)

/-! ## Path order lemmas -/

theorem isSegPre_refl (a : PPath) : isSegPre a a = true := by
  induction a with
  | nil => rfl
  | cons x xs ih => simp [isSegPre, ih]

theorem segLe_of_isSegPre : ∀ a b : PPath, isSegPre a b = true → segLe a b = true
  | [], _, _ => rfl
  | _ :: _, [], h => by simp [isSegPre] at h
  | x :: xs, y :: ys, h => by
    simp only [isSegPre, Bool.and_eq_true, decide_eq_true_eq] at h
    obtain ⟨hxy, hp⟩ := h
    subst hxy
    simp [segLe, segLe_of_isSegPre xs ys hp]

theorem segLe_total : ∀ a b : PPath, segLe a b = true ∨ segLe b a = true
  | [], _ => Or.inl rfl
  | _ :: _, [] => Or.inr rfl
  | x :: xs, y :: ys => by
    by_cases hxy : x = y
    · subst hxy
      rcases segLe_total xs ys with h | h
      · exact Or.inl (by simp [segLe, h])
      · exact Or.inr (by simp [segLe, h])
    · rcases lt_or_gt_of_ne hxy with h | h
      · exact Or.inl (by simp [segLe, hxy, h])
      · exact Or.inr (by simp [segLe, Ne.symm hxy, gt_iff_lt.mp h])

theorem segLe_trans : ∀ a b c : PPath,
    segLe a b = true → segLe b c = true → segLe a c = true
  | [], _, _, _, _ => rfl
  | _ :: _, [], _, hab, _ => by simp [segLe] at hab
  | _ :: _, _ :: _, [], _, hbc => by simp [segLe] at hbc
  | x :: xs, y :: ys, z :: zs, hab, hbc => by
    by_cases hxy : x = y <;> by_cases hyz : y = z
    · subst hxy; subst hyz
      simp only [segLe, if_pos rfl] at hab hbc ⊢
      exact segLe_trans xs ys zs hab hbc
    · subst hxy
      simp only [segLe, if_pos rfl, if_neg hyz, decide_eq_true_eq] at hbc ⊢
      simp [hyz, hbc]
    · subst hyz
      simp only [segLe, if_pos rfl, if_neg hxy, decide_eq_true_eq] at hab ⊢
      simp [hxy, hab]
    · simp only [segLe, if_neg hxy, if_neg hyz, decide_eq_true_eq] at hab hbc
      have hxz : x < z := lt_trans hab hbc
      have hne : x ≠ z := ne_of_lt hxz
      simp [segLe, hne, hxz]

theorem segLe_antisymm : ∀ a b : PPath,
    segLe a b = true → segLe b a = true → a = b
  | [], [], _, _ => rfl
  | [], _ :: _, _, hba => by simp [segLe] at hba
  | _ :: _, [], hab, _ => by simp [segLe] at hab
  | x :: xs, y :: ys, hab, hba => by
    by_cases hxy : x = y
    · subst hxy
      simp only [segLe, if_pos rfl] at hab hba
      rw [segLe_antisymm xs ys hab hba]
    · simp only [segLe, if_neg hxy, if_neg (Ne.symm hxy), decide_eq_true_eq] at hab hba
      exact absurd hba (lt_asymm hab)

/-- Core geometric fact behind the single linear pass of `concentrate`: with
paths ordered lexicographically by segments, every descendant of a kept
path `k` sorts before the next kept non-descendant `p`, so a descendant
`x` of `k` can never appear after `p`. -/
theorem lex_between : ∀ k p x : PPath, isSegPre k x = true → segLe k p = true →
    isSegPre k p = false → segLe p x = true → p ≠ x → False
  | [], p, _, _, _, hkp, _, _ => by simp [isSegPre] at hkp
  | _ :: _, [], _, _, hkp, _, _, _ => by simp [segLe] at hkp
  | a :: ks, b :: ptl, x, hkx, hkp, hnp, hpx, hne => by
    match x, hkx with
    | xh :: xtl, hkx =>
      simp only [isSegPre, Bool.and_eq_true, decide_eq_true_eq] at hkx
      obtain ⟨hax, hkx'⟩ := hkx
      subst hax
      by_cases hab : a = b
      · subst hab
        simp only [isSegPre, Bool.and_eq_true, decide_eq_true_eq, true_and] at hnp
        simp only [segLe, if_pos rfl] at hkp hpx
        have hne' : ptl ≠ xtl := fun h => hne (by rw [h])
        exact lex_between ks ptl xtl hkx' hkp hnp hpx hne'
      · simp only [segLe, if_neg hab, decide_eq_true_eq] at hkp
        simp only [segLe, if_neg (Ne.symm hab), decide_eq_true_eq] at hpx
        exact absurd hpx (lt_asymm hkp)

/-! ## `keepScan` lemmas -/

theorem keepScan_sublist : ∀ (k : Option PPath) (l : List PPath), (keepScan k l).Sublist l
  | none, [] => List.Sublist.refl []
  | some _, [] => List.Sublist.refl []
  | none, p :: ps => (keepScan_sublist (some p) ps).cons₂ p
  | some k, p :: ps => by
    by_cases h : isSegPre k p = true
    · simpa [keepScan, h] using (keepScan_sublist (some k) ps).cons p
    · simpa [keepScan, h] using (keepScan_sublist (some p) ps).cons₂ p

theorem keepScan_some_spec : ∀ (l : List PPath), l.Pairwise pathLe → ∀ k : PPath,
    (∀ x ∈ l, pathLe k x) →
    (∀ x ∈ keepScan (some k) l, isSegPre k x = false ∧ x ∈ l) ∧
      (keepScan (some k) l).Pairwise
        (fun a b => isSegPre a b = false ∧ isSegPre b a = false)
  | [], _, k, _ => by simp [keepScan]
  | p :: ps, hl, k, hk => by
    have hp : ∀ x ∈ ps, pathLe p x := fun x hx => List.rel_of_pairwise_cons hl hx
    have hps : ps.Pairwise pathLe := hl.of_cons
    have hkps : ∀ x ∈ ps, pathLe k x := fun x hx => hk x (List.mem_cons_of_mem p hx)
    by_cases hpre : isSegPre k p = true
    · have ih := keepScan_some_spec ps hps k hkps
      refine ⟨fun x hx => ?_, ?_⟩
      · simp only [keepScan, if_pos hpre] at hx
        exact ⟨(ih.1 x hx).1, List.mem_cons_of_mem p (ih.1 x hx).2⟩
      · simpa only [keepScan, if_pos hpre] using ih.2
    · have ih := keepScan_some_spec ps hps p hp
      have htail : ∀ x ∈ keepScan (some p) ps,
          isSegPre p x = false ∧ isSegPre x p = false := by
        intro x hx
        refine ⟨(ih.1 x hx).1, ?_⟩
        by_contra hxk
        have hxp : isSegPre x p = true := by
          cases h : isSegPre x p with
          | true => rfl
          | false => exact absurd h hxk
        have h1 : segLe x p = true := segLe_of_isSegPre x p hxp
        have h2 : segLe p x = true := hp x (ih.1 x hx).2
        have hfx : isSegPre p x = false := (ih.1 x hx).1
        have hpx : p = x := segLe_antisymm p x h2 h1
        rw [hpx] at hfx
        exact absurd (isSegPre_refl x) (by simp [hfx])
      refine ⟨fun x hx => ?_, ?_⟩
      · simp only [keepScan, if_neg hpre] at hx
        rcases List.mem_cons.mp hx with hx | hx
        · rw [hx]
          exact ⟨(by simpa using hpre), List.mem_cons_self p ps⟩
        · refine ⟨?_, List.mem_cons_of_mem p (ih.1 x hx).2⟩
          by_contra hkx'
          have hkx : isSegPre k x = true := by
            cases h : isSegPre k x with
            | true => rfl
            | false => exact absurd h hkx'
          have hnep : p ≠ x := by
            intro h
            have hfx : isSegPre p x = false := (ih.1 x hx).1
            rw [h] at hfx
            exact absurd (isSegPre_refl x) (by simp [hfx])
          exact lex_between k p x hkx (hk p (List.mem_cons_self p ps))
            (by simpa using hpre) (hp x (ih.1 x hx).2) hnep
      · simp only [keepScan, if_neg hpre]
        exact List.Pairwise.cons htail ih.2

theorem keepScan_none_spec (l : List PPath) (hl : l.Pairwise pathLe) :
    (∀ x ∈ keepScan none l, x ∈ l) ∧
      (keepScan none l).Pairwise
        (fun a b => isSegPre a b = false ∧ isSegPre b a = false) := by
  cases l with
  | nil => simp [keepScan]
  | cons p ps =>
    have hp : ∀ x ∈ ps, pathLe p x := fun x hx => List.rel_of_pairwise_cons hl hx
    have ih := keepScan_some_spec ps hl.of_cons p hp
    have htail : ∀ x ∈ keepScan (some p) ps,
        isSegPre p x = false ∧ isSegPre x p = false := by
      intro x hx
      refine ⟨(ih.1 x hx).1, ?_⟩
      by_contra hxk
      have hxp : isSegPre x p = true := by
        cases h : isSegPre x p with
        | true => rfl
        | false => exact absurd h hxk
      have h1 : segLe x p = true := segLe_of_isSegPre x p hxp
      have h2 : segLe p x = true := hp x (ih.1 x hx).2
      have hfx : isSegPre p x = false := (ih.1 x hx).1
      have hpx : p = x := segLe_antisymm p x h2 h1
      rw [hpx] at hfx
      exact absurd (isSegPre_refl x) (by simp [hfx])
    constructor
    · intro x hx
      simp only [keepScan] at hx
      rcases List.mem_cons.mp hx with hx | hx
      · rw [hx]; exact List.mem_cons_self p ps
      · exact List.mem_cons_of_mem p (ih.1 x hx).2
    · simpa only [keepScan] using List.Pairwise.cons htail ih.2

theorem keepScan_some_id : ∀ (l : List PPath) (k : PPath),
    (∀ x ∈ l, isSegPre k x = false) →
    l.Pairwise (fun a b => isSegPre a b = false) → keepScan (some k) l = l
  | [], _, _, _ => rfl
  | p :: ps, k, hk, hl => by
    have h1 : isSegPre k p = false := hk p (List.mem_cons_self p ps)
    simp only [keepScan]
    rw [if_neg (by simp [h1] : ¬isSegPre k p = true)]
    rw [keepScan_some_id ps p (fun x hx => List.rel_of_pairwise_cons hl hx) hl.of_cons]

theorem keepScan_none_id (l : List PPath)
    (hl : l.Pairwise (fun a b => isSegPre a b = false)) : keepScan none l = l := by
  cases l with
  | nil => rfl
  | cons p ps =>
    simp only [keepScan]
    rw [keepScan_some_id ps p (fun x hx => List.rel_of_pairwise_cons hl hx) hl.of_cons]

/-! ## `Mounted` dictionary lemmas -/

theorem lookupSrc_isSome : ∀ (m : Mounted) (p : PPath),
    p ∈ srcKeys m → (lookupSrc p m).isSome = true
  | [], p, h => by simp [srcKeys] at h
  | (k, v) :: rest, p, h => by
    by_cases hkp : k = p
    · simp [lookupSrc, hkp]
    · have : p ∈ srcKeys rest := by
        simp only [srcKeys, List.map_cons, List.mem_cons] at h
        rcases h with h | h
        · exact absurd h.symm hkp
        · exact h
      simp only [lookupSrc, if_neg hkp]
      exact lookupSrc_isSome rest p this

theorem lookupSrc_eq_none : ∀ (m : Mounted) (p : PPath),
    p ∉ srcKeys m → lookupSrc p m = none
  | [], _, _ => rfl
  | (k, v) :: rest, p, h => by
    simp only [srcKeys, List.map_cons, List.mem_cons, not_or] at h
    have hkp : ¬k = p := fun hkp => h.1 hkp.symm
    simp only [lookupSrc, if_neg hkp]
    exact lookupSrc_eq_none rest p h.2

theorem srcKeys_filterMap_lookup (m : Mounted) : ∀ (l : List PPath),
    srcKeys (l.filterMap fun p => (lookupSrc p m).map fun v => (p, v)) =
      l.filter fun p => (lookupSrc p m).isSome
  | [] => rfl
  | p :: rest => by
    cases h : lookupSrc p m with
    | none =>
      rw [List.filterMap_cons_none (by rw [h]; rfl)]
      simp only [List.filter_cons, h, Option.isSome_none]
      rw [if_neg (by simp)]
      exact srcKeys_filterMap_lookup m rest
    | some v =>
      rw [List.filterMap_cons_some (by rw [h]; rfl)]
      simp only [List.filter_cons, h, Option.isSome_some, if_pos rfl, srcKeys,
        List.map_cons]
      exact congrArg (List.cons p) (srcKeys_filterMap_lookup m rest)

theorem lookupSrc_filterMap (m : Mounted) : ∀ (l : List PPath) (p : PPath),
    l.Nodup → p ∈ l →
    lookupSrc p (l.filterMap fun q => (lookupSrc q m).map fun v => (q, v)) =
      lookupSrc p m
  | [], p, _, hp => by simp at hp
  | q :: rest, p, hnd, hp => by
    cases h : lookupSrc q m with
    | none =>
      rw [List.filterMap_cons_none (by rw [h]; rfl)]
      rcases List.mem_cons.mp hp with hpq | hpr
      · have hnot : p ∉ srcKeys (rest.filterMap
            fun r => (lookupSrc r m).map fun v => (r, v)) := by
          rw [srcKeys_filterMap_lookup]
          intro hmem
          have hprest : p ∈ rest := List.mem_of_mem_filter hmem
          rw [hpq] at hprest
          exact (List.nodup_cons.mp hnd).1 hprest
        rw [lookupSrc_eq_none _ p hnot, hpq, h]
      · exact lookupSrc_filterMap m rest p (List.nodup_cons.mp hnd).2 hpr
    | some v =>
      rw [List.filterMap_cons_some (by rw [h]; rfl)]
      by_cases hqp : q = p
      · rw [← hqp]
        simp [lookupSrc, h]
      · simp only [lookupSrc, if_neg hqp]
        rcases List.mem_cons.mp hp with hpq | hpr
        · exact absurd hpq.symm hqp
        · exact lookupSrc_filterMap m rest p (List.nodup_cons.mp hnd).2 hpr

/-! ## Sorted sources and `concentrate` keys -/

instance : IsTotal PPath pathLe := ⟨fun a b => segLe_total a b⟩

instance : IsTrans PPath pathLe := ⟨fun a b c hab hbc => segLe_trans a b c hab hbc⟩

theorem sortedSrcs_pairwise (m : Mounted) : (sortedSrcs m).Pairwise pathLe :=
  List.sorted_insertionSort pathLe (srcKeys m)

theorem mem_sortedSrcs {m : Mounted} {p : PPath} :
    p ∈ sortedSrcs m ↔ p ∈ srcKeys m :=
  (List.perm_insertionSort pathLe (srcKeys m)).mem_iff

theorem srcKeys_concentrate (m : Mounted) :
    srcKeys (concentrate m) = keepScan none (sortedSrcs m) := by
  unfold concentrate
  rw [srcKeys_filterMap_lookup]
  apply List.filter_eq_self.mpr
  intro p hp
  exact lookupSrc_isSome m p
    (mem_sortedSrcs.mp ((keepScan_none_spec _ (sortedSrcs_pairwise m)).1 p hp))

/-! ## Accumulator monotonicity of the `shlex` state machine -/

theorem lexStep_acc (st : LexState) (c : Char) :
    (lexStep st c).acc = st.acc ∨ (lexStep st c).acc = st.acc ++ [st.cur] := by
  rcases st with ⟨acc, cur, q, mode⟩
  cases mode <;> simp only [lexStep] <;> repeat' split
  all_goals tauto

theorem foldl_lexStep_acc : ∀ (cs : List Char) (st : LexState),
    ∃ t, (cs.foldl lexStep st).acc = st.acc ++ t
  | [], st => ⟨[], by simp⟩
  | c :: cs, st => by
    obtain ⟨t, ht⟩ := foldl_lexStep_acc cs (lexStep st c)
    rcases lexStep_acc st c with h | h
    · exact ⟨t, by rw [List.foldl_cons, ht, h]⟩
    · exact ⟨[st.cur] ++ t, by rw [List.foldl_cons, ht, h, List.append_assoc]⟩

theorem lexFinalize_acc {st : LexState} {ts : List String}
    (h : lexFinalize st = some ts) : ∃ t, ts = st.acc ++ t := by
  cases hm : st.mode
  case space =>
    simp only [lexFinalize, hm, Option.some.injEq] at h
    exact ⟨[], by simp [← h]⟩
  case word =>
    simp only [lexFinalize, hm, Option.some.injEq] at h
    exact ⟨_, h.symm⟩
  case insq => simp only [lexFinalize, hm] at h; exact Option.noConfusion h
  case indq => simp only [lexFinalize, hm] at h; exact Option.noConfusion h
  case escWord => simp only [lexFinalize, hm] at h; exact Option.noConfusion h
  case escDq => simp only [lexFinalize, hm] at h; exact Option.noConfusion h

/-- The concrete lexer state reached after the fixed wrap prefix
`/bin/bash -c "`: two tokens already emitted, inside double quotes. -/
theorem lex_prefix_eval :
    List.foldl lexStep initLex ("/bin/bash -c " ++ dqStr).data =
      ⟨["/bin/bash", "-c"], "", true, LexMode.indq⟩ := by decide

/-- Whatever the wrapped command is, a successful tokenization of the wrap
starts with the two tokens `/bin/bash`, `-c`. -/
theorem shlex_split_bashWrap_take2 (s : String) (ts : List String)
    (h : shlex_split (bashWrap s) = some ts) : ts.take 2 = ["/bin/bash", "-c"] := by
  have hdata : (bashWrap s).data =
      ("/bin/bash -c " ++ dqStr).data ++ (s.data ++ dqStr.data) := by
    simp only [bashWrap, String.data_append, List.append_assoc]
  rw [shlex_split, hdata, List.foldl_append, List.foldl_append, lex_prefix_eval] at h
  obtain ⟨t, ht⟩ :=
    foldl_lexStep_acc s.data ⟨["/bin/bash", "-c"], "", true, LexMode.indq⟩
  obtain ⟨t3, ht3⟩ : ∃ t3,
      (List.foldl lexStep (List.foldl lexStep
        ⟨["/bin/bash", "-c"], "", true, LexMode.indq⟩ s.data) dqStr.data).acc =
        ["/bin/bash", "-c"] ++ t3 := by
    obtain ⟨u, hu⟩ := foldl_lexStep_acc dqStr.data
      (List.foldl lexStep ⟨["/bin/bash", "-c"], "", true, LexMode.indq⟩ s.data)
    exact ⟨t ++ u, by rw [hu, ht, List.append_assoc]⟩
  obtain ⟨u2, hu2⟩ := lexFinalize_acc h
  rw [ht3] at hu2
  rw [hu2, List.append_assoc]
  exact List.take_left' rfl

/-! ## Miscellaneous helpers -/

theorem foldl_mountCopy : ∀ (l : List PPath) (acc : List EnvEvent),
    l.foldl (fun a m => a ++ [EnvEvent.mountCopy m]) acc =
      acc ++ l.map EnvEvent.mountCopy
  | [], acc => by simp
  | m :: rest, acc => by
    rw [List.foldl_cons, foldl_mountCopy rest (acc ++ [EnvEvent.mountCopy m])]
    simp

theorem pathExists_rmtree_self (root : PPath) (fs : FileSys) :
    pathExists (rmtree root fs) root = false := by
  cases h : pathExists (rmtree root fs) root with
  | false => rfl
  | true =>
    exfalso
    simp only [pathExists, rmtree, List.any_eq_true, decide_eq_true_eq] at h
    obtain ⟨q, hq, rfl⟩ := h
    have hfil := List.of_mem_filter hq
    rw [isSegPre_refl q] at hfil
    simp at hfil

/-! ## Claims about `DockerEnvRemote.remote` -/

/-- C1 counterexample: the claim says every forwarded argument vector has
`/bin/bash`, `-c` as its first two tokens.  The string
`echo /bin/bash -c ` followed by a single-quoted `hi` already contains
the pattern somewhere (and
`re.search` looks anywhere), so it is not wrapped, and its forwarded
vector starts with `echo`. -/
theorem claim_C1_counterexample :
    remote (Sum.inl ("echo /bin/bash -c " ++ sqStr ++ "hi" ++ sqStr)) =
        some ["echo", "/bin/bash", "-c", "hi"] ∧
      ["echo", "/bin/bash", "-c", "hi"].take 2 ≠ ["/bin/bash", "-c"] :=
  ⟨by decide, by decide⟩

/-- C1 (amended): for every sequence input the first two tokens of the
forwarded vector are `/bin/bash` and `-c` after trimming whitespace; for
every string input in which the `/bin/bash -c <quoted>` pattern does not
occur (so the string gets wrapped), the first two tokens of any
successfully forwarded vector are exactly `/bin/bash` and `-c`. -/
theorem claim_C1 :
    (∀ l : List String, ∃ a b rest, remote (Sum.inr l) = some (a :: b :: rest) ∧
      pyStrip a = "/bin/bash" ∧ pyStrip b = "-c") ∧
    (∀ (s : String) (ts : List String), searchBashC s.data = false →
      remote (Sum.inl s) = some ts → ts.take 2 = ["/bin/bash", "-c"]) := by
  constructor
  · intro l
    match l with
    | [] => exact ⟨"/bin/bash", "-c", [], rfl, rfl, rfl⟩
    | [a] => exact ⟨"/bin/bash", "-c", [a], rfl, rfl, rfl⟩
    | [a, b] => exact ⟨"/bin/bash", "-c", [a, b], rfl, rfl, rfl⟩
    | a :: b :: c :: rest =>
      by_cases h : pyStrip a = "/bin/bash" ∧ pyStrip b = "-c"
      · refine ⟨a, b, c :: rest, ?_, h.1, h.2⟩
        simp only [remote, remoteSeq]
        rw [if_pos (by simp [h.1, h.2])]
      · refine ⟨"/bin/bash", "-c", a :: b :: c :: rest, ?_, rfl, rfl⟩
        simp only [remote, remoteSeq]
        rw [if_neg (by simpa using h)]
  · intro s ts hs hr
    simp only [remote, remoteString, hs, Bool.false_eq_true, if_false] at hr
    exact shlex_split_bashWrap_take2 s ts hr

/-- C1 witness: the amended string half at the concrete input `ls -la`. -/
theorem claim_C1_witness :
    ["/bin/bash", "-c", "ls -la"].take 2 = ["/bin/bash", "-c"] :=
  claim_C1.2 "ls -la" ["/bin/bash", "-c", "ls -la"] (by decide) (by decide)

/-- C3 counterexample: the claim says the two-element sequence
`["/bin/bash", "-c"]` is forwarded unchanged; the code, however, requires
strictly more than two tokens to keep a sequence, so the prefix is
prepended again. -/
theorem claim_C3_counterexample :
    remote (Sum.inr ["/bin/bash", "-c"]) ≠ some ["/bin/bash", "-c"] := by
  decide

/-- C3 (amended): a token sequence is forwarded unchanged only when it has
more than two tokens and its first two tokens are `/bin/bash` and `-c`
after trimming; every other sequence — including the two-element
`["/bin/bash", "-c"]` itself — gets `/bin/bash`, `-c` prepended.  In
particular `remote(["ls", "-la"])` forwards
`["/bin/bash", "-c", "ls", "-la"]`, and `remote(["/bin/bash", "-c"])`
forwards `["/bin/bash", "-c", "/bin/bash", "-c"]`. -/
theorem claim_C3 :
    (∀ (a b c : String) (rest : List String),
      pyStrip a = "/bin/bash" → pyStrip b = "-c" →
      remote (Sum.inr (a :: b :: c :: rest)) = some (a :: b :: c :: rest)) ∧
    (∀ (a b c : String) (rest : List String),
      ¬(pyStrip a = "/bin/bash" ∧ pyStrip b = "-c") →
      remote (Sum.inr (a :: b :: c :: rest)) =
        some ("/bin/bash" :: "-c" :: a :: b :: c :: rest)) ∧
    (∀ l : List String, l.length ≤ 2 →
      remote (Sum.inr l) = some ("/bin/bash" :: "-c" :: l)) ∧
    remote (Sum.inr ["ls", "-la"]) = some ["/bin/bash", "-c", "ls", "-la"] ∧
    remote (Sum.inr ["/bin/bash", "-c"]) =
      some ["/bin/bash", "-c", "/bin/bash", "-c"] := by
  refine ⟨?_, ?_, ?_, by decide, by decide⟩
  · intro a b c rest ha hb
    simp only [remote, remoteSeq]
    rw [if_pos (by simp [ha, hb])]
  · intro a b c rest h
    simp only [remote, remoteSeq]
    rw [if_neg (by simpa using h)]
  · intro l hl
    match l with
    | [] => rfl
    | [a] => rfl
    | [a, b] => rfl
    | a :: b :: c :: rest => simp at hl

/-- C3 witness: both branch shapes at concrete inputs. -/
theorem claim_C3_witness :
    remote (Sum.inr ["/bin/bash", "-c", "ls"]) = some ["/bin/bash", "-c", "ls"] :=
  claim_C3.1 "/bin/bash" "-c" "ls" [] (by decide) (by decide)

/-- C4: a string that does not contain the explicit `/bin/bash -c <quoted>`
pattern is wrapped as `/bin/bash -c "<cmd>"` and then shell-word-split;
`remote("echo hi")` forwards `["/bin/bash", "-c", "echo hi"]`; and
an already explicit invocation (with the command single-quoted) is not
double-wrapped — its vector
contains `/bin/bash` and `-c` exactly once each, as the first two
tokens. -/
theorem claim_C4 :
    (∀ s : String, searchBashC s.data = false →
      remote (Sum.inl s) = shlex_split (bashWrap s)) ∧
    remote (Sum.inl "echo hi") = some ["/bin/bash", "-c", "echo hi"] ∧
    remote (Sum.inl ("/bin/bash -c " ++ sqStr ++ "echo hi" ++ sqStr)) =
      some ["/bin/bash", "-c", "echo hi"] ∧
    List.count "/bin/bash" ["/bin/bash", "-c", "echo hi"] = 1 ∧
    List.count "-c" ["/bin/bash", "-c", "echo hi"] = 1 := by
  refine ⟨?_, by decide, by decide, by decide, by decide⟩
  intro s hs
  simp only [remote, remoteString, hs, Bool.false_eq_true, if_false]

/-- C4 witness: the wrap branch at the concrete input `echo hi`. -/
theorem claim_C4_witness :
    remote (Sum.inl "echo hi") = shlex_split (bashWrap "echo hi") :=
  claim_C4.1 "echo hi" (by decide)

/-! ## Claims about `Mounted` -/

/-- C2: adding an ancestor `A` and a descendant `B` to a `Mounted` set, in
either order, leaves exactly the entry for `A`; and after any
`concentrate` (hence after any `add`) no two entries have sources where
one is a filesystem descendant of the other. -/
theorem claim_C2 :
    (∀ A B vA vB : PPath, isSegPre A B = true → A ≠ B →
      mountedAdd (mountedAdd [] A vA) B vB = [(A, vA)] ∧
      mountedAdd (mountedAdd [] B vB) A vA = [(A, vA)]) ∧
    (∀ m : Mounted, (srcKeys (concentrate m)).Pairwise
      (fun a b => isSegPre a b = false ∧ isSegPre b a = false)) := by
  constructor
  · intro A B vA vB hpre hne
    have hne' : ¬B = A := fun h => hne h.symm
    have hle : pathLe A B := segLe_of_isSegPre A B hpre
    have hscan : keepScan none [A, B] = [A] := by simp [keepScan, hpre]
    constructor
    · have h1 : mountedAdd [] A vA = [(A, vA)] := by
        simp [mountedAdd, setEntry, concentrate, sortedSrcs, srcKeys,
          keepScan, lookupSrc]
      rw [h1]
      have hset : setEntry [(A, vA)] B vB = [(A, vA), (B, vB)] := by
        simp [setEntry, hne]
      have hsort : sortedSrcs [(A, vA), (B, vB)] = [A, B] := by
        simp [sortedSrcs, srcKeys, hle]
      show concentrate (setEntry [(A, vA)] B vB) = [(A, vA)]
      rw [hset]
      show (keepScan none (sortedSrcs [(A, vA), (B, vB)])).filterMap _ = _
      rw [hsort, hscan]
      simp [lookupSrc]
    · have h2 : mountedAdd [] B vB = [(B, vB)] := by
        simp [mountedAdd, setEntry, concentrate, sortedSrcs, srcKeys,
          keepScan, lookupSrc]
      rw [h2]
      have hset2 : setEntry [(B, vB)] A vA = [(B, vB), (A, vA)] := by
        simp [setEntry, hne']
      have hnba : ¬pathLe B A := by
        intro hba
        exact hne (segLe_antisymm A B hle hba)
      have hsort2 : sortedSrcs [(B, vB), (A, vA)] = [A, B] := by
        simp [sortedSrcs, srcKeys, hnba]
      show concentrate (setEntry [(B, vB)] A vA) = [(A, vA)]
      rw [hset2]
      show (keepScan none (sortedSrcs [(B, vB), (A, vA)])).filterMap _ = _
      rw [hsort2, hscan]
      simp [lookupSrc, hne']
  · intro m
    have hp := (keepScan_none_spec (sortedSrcs m) (sortedSrcs_pairwise m)).2
    rw [srcKeys_concentrate m]
    exact hp

/-- C2 witness: the ancestor/descendant pair `/tmp` and `/tmp/x`, in both
insertion orders. -/
theorem claim_C2_witness :
    mountedAdd (mountedAdd [] ["tmp"] ["s1"]) ["tmp", "x"] ["s2"] =
        [(["tmp"], ["s1"])] ∧
      mountedAdd (mountedAdd [] ["tmp", "x"] ["s2"]) ["tmp"] ["s1"] =
        [(["tmp"], ["s1"])] :=
  claim_C2.1 ["tmp"] ["tmp", "x"] ["s1"] ["s2"] (by decide) (by decide)

/-- C10: normalization is idempotent — running `concentrate` again right
after a run leaves the entry set unchanged. -/
theorem claim_C10 : ∀ m : Mounted, concentrate (concentrate m) = concentrate m := by
  intro m
  have hpwNP := (keepScan_none_spec (sortedSrcs m) (sortedSrcs_pairwise m)).2
  have hkeys : srcKeys (concentrate m) = keepScan none (sortedSrcs m) :=
    srcKeys_concentrate m
  have hsorted : (keepScan none (sortedSrcs m)).Pairwise pathLe :=
    List.Pairwise.sublist (keepScan_sublist none (sortedSrcs m)) (sortedSrcs_pairwise m)
  have hnodup : (keepScan none (sortedSrcs m)).Nodup := by
    refine hpwNP.imp ?_
    intro a b hab heq
    rw [heq] at hab
    exact absurd (isSegPre_refl b) (by simp [hab.1])
  have hsrt2 : sortedSrcs (concentrate m) = keepScan none (sortedSrcs m) := by
    rw [sortedSrcs, hkeys]
    exact List.Sorted.insertionSort_eq hsorted
  have hscan2 : keepScan none (keepScan none (sortedSrcs m)) =
      keepScan none (sortedSrcs m) :=
    keepScan_none_id _ (hpwNP.imp fun hab => hab.1)
  calc concentrate (concentrate m)
      = (keepScan none (sortedSrcs (concentrate m))).filterMap
          (fun p => (lookupSrc p (concentrate m)).map fun v => (p, v)) := rfl
    _ = (keepScan none (sortedSrcs m)).filterMap
          (fun p => (lookupSrc p (concentrate m)).map fun v => (p, v)) := by
        rw [hsrt2, hscan2]
    _ = (keepScan none (sortedSrcs m)).filterMap
          (fun p => (lookupSrc p m).map fun v => (p, v)) := by
        apply List.filterMap_congr
        intro p hp
        have hl2 : lookupSrc p (concentrate m) = lookupSrc p m :=
          lookupSrc_filterMap m (keepScan none (sortedSrcs m)) p hnodup hp
        rw [hl2]
    _ = concentrate m := rfl

/-! ## Claims about `DockerEnv` -/

/-- C5: with an identity filter configured, `force_rerun=false`, and more
than one runtime match, `run_container` fails with the
"multiple containers found" error, issues no call besides the lookup (in
particular creates nothing), and leaves the tracked reference unchanged. -/
theorem claim_C5 :
    ∀ ctx : RunCtx, ctx.hasFilter = true → 1 < ctx.psResult.length →
      (run_container ctx false).error =
          some "Multiple containers found with same filter" ∧
        (run_container ctx false).container = ctx.current ∧
        (run_container ctx false).actions = [DockerAction.psQuery] := by
  intro ctx hf hlen
  have hne : ctx.psResult.isEmpty = false := by
    cases h : ctx.psResult with
    | nil => rw [h] at hlen; simp at hlen
    | cons a l => rfl
  have hlen1 : ¬ctx.psResult.length = 1 := by omega
  simp [run_container, hf, hne, hlen1]

/-- C5 witness: filter configured, two matches, `force_rerun=false`. -/
theorem claim_C5_witness :
    (run_container ⟨true, [1, 2], some 0, 9⟩ false).error =
        some "Multiple containers found with same filter" ∧
      (run_container ⟨true, [1, 2], some 0, 9⟩ false).container = some 0 ∧
      (run_container ⟨true, [1, 2], some 0, 9⟩ false).actions =
        [DockerAction.psQuery] :=
  claim_C5 ⟨true, [1, 2], some 0, 9⟩ (by decide) (by decide)

/-- Behaviour of the tail of `run_container`: a fresh container is created
iff `force_rerun` is set or no container is tracked; under `force_rerun` a
tracked container is removed first. -/
theorem run_container_rest_spec (ctx : RunCtx) (fr : Bool)
    (acts0 : List DockerAction)
    (h0 : ∀ c, DockerAction.runCreate c ∉ acts0) :
    ((fr = true ∨ ctx.current = none) →
      (run_container_rest ctx fr acts0).container = some ctx.created ∧
      (run_container_rest ctx fr acts0).actions.getLast? =
        some (DockerAction.runCreate ctx.created) ∧
      (∀ c, ctx.current = some c → fr = true →
        DockerAction.removeOne c ∈ (run_container_rest ctx fr acts0).actions)) ∧
    ((fr = false ∧ ctx.current ≠ none) →
      (run_container_rest ctx fr acts0).container = ctx.current ∧
      ∀ c, DockerAction.runCreate c ∉ (run_container_rest ctx fr acts0).actions) := by
  cases fr with
  | true =>
    refine ⟨fun _ => ?_, fun h => absurd h.1 (by simp)⟩
    cases hcur : ctx.current with
    | none =>
      refine ⟨by simp [run_container_rest, hcur], ?_, ?_⟩
      · simp [run_container_rest, hcur, List.getLast?_concat]
      · intro c hc
        exact Option.noConfusion hc
    | some c0 =>
      refine ⟨by simp [run_container_rest, hcur], ?_, ?_⟩
      · simp [run_container_rest, hcur, List.getLast?_concat]
      · intro c hc _
        obtain rfl : c0 = c := Option.some.inj hc
        simp [run_container_rest, hcur]
  | false =>
    refine ⟨fun h => ?_, fun h => ?_⟩
    · have hcur : ctx.current = none := by
        rcases h with h | h
        · exact Bool.noConfusion h
        · exact h
      refine ⟨by simp [run_container_rest, hcur], ?_, ?_⟩
      · simp [run_container_rest, hcur, List.getLast?_concat]
      · intro c hc
        rw [hcur] at hc
        exact Option.noConfusion hc
    · cases hcur : ctx.current with
      | none => exact absurd hcur h.2
      | some c0 =>
        refine ⟨by simp [run_container_rest, hcur], ?_⟩
        intro c
        simp [run_container_rest, hcur, h0 c]

/-- C6 counterexample: with no identity filter configured, `force_rerun`
false, and an already tracked container, `run_container` issues no runtime
call at all and keeps the tracked container — it does not "always end by
creating a fresh container, for either value of force_rerun". -/
theorem claim_C6_counterexample :
    run_container ⟨false, [], some 5, 7⟩ false =
      ⟨[], some 5, none⟩ := by decide

/-- C6 (amended): whenever no identity filter is configured, or the lookup
found no matches, or `force_rerun` removed all matches, `run_container`
creates and starts a new container exactly when `force_rerun` is true or
no live container reference is held (first force-removing a held live
reference when `force_rerun` is true); when `force_rerun` is false and a
live reference is held, the reference is kept and nothing is created. -/
theorem claim_C6 :
    ∀ (ctx : RunCtx) (fr : Bool),
      ctx.hasFilter = false ∨ ctx.psResult = [] ∨ fr = true →
      ((fr = true ∨ ctx.current = none) →
        (run_container ctx fr).container = some ctx.created ∧
        (run_container ctx fr).actions.getLast? =
          some (DockerAction.runCreate ctx.created) ∧
        (∀ c, ctx.current = some c → fr = true →
          DockerAction.removeOne c ∈ (run_container ctx fr).actions)) ∧
      ((fr = false ∧ ctx.current ≠ none) →
        (run_container ctx fr).container = ctx.current ∧
        ∀ c, DockerAction.runCreate c ∉ (run_container ctx fr).actions) := by
  intro ctx fr hcond
  have hred : ∃ acts0, run_container ctx fr = run_container_rest ctx fr acts0 ∧
      ∀ c, DockerAction.runCreate c ∉ acts0 := by
    cases hfil : ctx.hasFilter with
    | false => exact ⟨[], by simp [run_container, hfil], by simp⟩
    | true =>
      cases hps : ctx.psResult.isEmpty with
      | true => exact ⟨[DockerAction.psQuery], by simp [run_container, hfil, hps], by simp⟩
      | false =>
        have hfr : fr = true := by
          rcases hcond with h | h | h
          · rw [hfil] at h; exact Bool.noConfusion h
          · rw [h] at hps; simp at hps
          · exact h
        exact ⟨[DockerAction.psQuery, DockerAction.removeMany ctx.psResult],
          by simp [run_container, hfil, hps, hfr], by simp⟩
  obtain ⟨acts0, heq, h0⟩ := hred
  rw [heq]
  exact run_container_rest_spec ctx fr acts0 h0

/-- C6 witness: no filter, tracked container 5, `force_rerun=true` — the
old container is removed and a fresh one created. -/
theorem claim_C6_witness :
    DockerAction.removeOne 5 ∈ (run_container ⟨false, [], some 5, 7⟩ true).actions :=
  ((claim_C6 ⟨false, [], some 5, 7⟩ true (Or.inl rfl)).1 (Or.inl rfl)).2.2 5 rfl rfl

/-- C7: `remove_container` returns `False` and logs (when a logger is
supplied) on runtime failure instead of raising; on success it clears the
tracked reference exactly when the removed target is the tracked
container; with no argument and no tracked container it is a no-op
reporting success. -/
theorem claim_C7 :
    ∀ (current arg : Option Container) (removeOk : Container → Bool)
      (hasLogger : Bool),
      (∀ t, (arg = some t ∨ arg = none ∧ current = some t) → removeOk t = false →
        remove_container current arg removeOk hasLogger =
          ⟨false, current, hasLogger⟩) ∧
      (∀ t, (arg = some t ∨ arg = none ∧ current = some t) → removeOk t = true →
        (remove_container current arg removeOk hasLogger).result = true ∧
        (remove_container current arg removeOk hasLogger).logged = false ∧
        (remove_container current arg removeOk hasLogger).container =
          (if current = some t then none else current)) ∧
      (arg = none → current = none →
        remove_container current arg removeOk hasLogger = ⟨true, none, false⟩) := by
  intro current arg removeOk hasLogger
  refine ⟨?_, ?_, ?_⟩
  · intro t ht hrem
    rcases ht with h | ⟨h1, h2⟩
    · simp [remove_container, h, hrem]
    · simp [remove_container, h1, h2, hrem]
  · intro t ht hrem
    rcases ht with h | ⟨h1, h2⟩
    · simp [remove_container, h, hrem]
    · simp [remove_container, h1, h2, hrem]
  · intro h1 h2
    simp [remove_container, h1, h2]

/-- C7 witness: a failing removal of the tracked container with a logger
present returns `False`, logs, and keeps the reference. -/
theorem claim_C7_witness :
    remove_container (some 3) none (fun _ => false) true = ⟨false, some 3, true⟩ :=
  (claim_C7 (some 3) none (fun _ => false) true).1 3 (Or.inr ⟨rfl, rfl⟩) rfl

/-! ## Claims about `MountSpace` staging and `DockerEnvRemote.__init__` -/

theorem remove_staging_not_exists (root : PPath) (fs : FileSys) :
    pathExists (remove_staging root fs).1 root = false := by
  unfold remove_staging
  split
  · exact pathExists_rmtree_self root fs
  · next h =>
    cases hb : pathExists fs root with
    | false => rfl
    | true => exact absurd hb h

theorem remove_staging_skip (root : PPath) (fs : FileSys)
    (h : pathExists fs root = false) :
    remove_staging root fs = (fs, [StagingEvent.skipRemove]) := by
  unfold remove_staging
  rw [if_neg (by simp [h])]

/-- C8: `init_staging` immediately followed by `remove_staging` leaves no
directory at the staging root, and a second `remove_staging` in a row is a
no-op that takes the logged skip branch (and, being total, raises
nothing). -/
theorem claim_C8 :
    ∀ (root : PPath) (fs : FileSys),
      pathExists (remove_staging root (init_staging root fs).1).1 root = false ∧
        (remove_staging root (remove_staging root fs).1).1 =
          (remove_staging root fs).1 ∧
        (remove_staging root (remove_staging root fs).1).2 =
          [StagingEvent.skipRemove] := by
  intro root fs
  refine ⟨?_, ?_, ?_⟩
  · exact remove_staging_not_exists root (init_staging root fs).1
  · rw [remove_staging_skip root (remove_staging root fs).1
      (remove_staging_not_exists root fs)]
  · rw [remove_staging_skip root (remove_staging root fs).1
      (remove_staging_not_exists root fs)]

/-- C9: during environment construction the container start is the last
recorded event, every mount copy precedes it, and the launch flags carry
the caller-supplied volume list with `(staging_root, remote_root)`
appended. -/
theorem claim_C9 :
    ∀ (stagingRoot remoteRoot : PPath) (mounts : List PPath)
      (callerVolumes : List (PPath × PPath)),
      (envRemoteInit stagingRoot remoteRoot mounts callerVolumes).2 =
          callerVolumes ++ [(stagingRoot, remoteRoot)] ∧
        (envRemoteInit stagingRoot remoteRoot mounts callerVolumes).1.getLast? =
          some (EnvEvent.containerStart
            (callerVolumes ++ [(stagingRoot, remoteRoot)])) ∧
        (∀ m ∈ mounts, EnvEvent.mountCopy m ∈
          (envRemoteInit stagingRoot remoteRoot mounts callerVolumes).1.dropLast) ∧
        (∀ v, EnvEvent.containerStart v ∉
          (envRemoteInit stagingRoot remoteRoot mounts callerVolumes).1.dropLast) := by
  intro sr rr mounts vols0
  have htr : (envRemoteInit sr rr mounts vols0).1 =
      ((EnvEvent.stagingInit :: mounts.map EnvEvent.mountCopy) ++
        [EnvEvent.containerStart (vols0 ++ [(sr, rr)])]) := by
    simp [envRemoteInit, foldl_mountCopy]
  refine ⟨rfl, ?_, ?_, ?_⟩
  · rw [htr, List.getLast?_concat]
  · intro m hm
    rw [htr, List.dropLast_concat]
    exact List.mem_cons_of_mem _ (List.mem_map_of_mem _ hm)
  · intro v
    rw [htr, List.dropLast_concat]
    intro hv
    rcases List.mem_cons.mp hv with h | h
    · exact EnvEvent.noConfusion h
    · obtain ⟨x, _, hx⟩ := List.mem_map.mp h
      exact EnvEvent.noConfusion hx

/-- C9 witness: one mount, whose copy event precedes the container
start. -/
theorem claim_C9_witness :
    EnvEvent.mountCopy ["data"] ∈
      (envRemoteInit ["tmp", "s"] ["remote_root"] [["data"]] []).1.dropLast :=
  (claim_C9 ["tmp", "s"] ["remote_root"] [["data"]] []).2.2.1 ["data"] (by decide)

end ContainerRemote
